import Mathlib

/-!
Shallow embedding of the re2c code-generation pass 2
(`src/codegen/pass2_generate.cc`) and proofs about its emission rules.

The embedding models the code tree as structured nodes (the textual render
pass is outside the verified core).  Functions that the source file calls
but that live outside the embedded file (the tag-command classification in
`tcmd_t`, the `argsubst` template helper, `fallback_state_with_eof_rule`)
are modelled from the specification and carry a doc comment saying so.
-/

namespace Re2c

/-- DFA state action kinds (`Action::Kind`). -/
inductive ActionKind
  | MATCH
  | INITIAL
  | SAVE
  | MOVE
  | ACCEPT
  | RULE
deriving DecidableEq, Repr, Inhabited

/-- Code emission models (`CodeModel`). -/
inductive CodeModel
  | GOTO_LABEL
  | LOOP_SWITCH
  | REC_FUNC
deriving DecidableEq, Repr, Inhabited

/-- API kinds (`Api`). -/
inductive Api
  | DEFAULT
  | CUSTOM
deriving DecidableEq, Repr, Inhabited

/-- API styles (`ApiStyle`). -/
inductive ApiStyle
  | FUNCTIONS
  | FREEFORM
deriving DecidableEq, Repr, Inhabited

/-- Output targets (`Target`). -/
inductive Target
  | CODE
  | DOT
  | SKELETON
deriving DecidableEq, Repr, Inhabited

/-- A DFA label: numeric index plus a used-flag (`Label`). -/
structure Label where
  index : Nat
  used : Bool
deriving DecidableEq, Repr, Inhabited

/-- States are referenced by index into the DFA state list (the source uses
`State*` pointers; the embedding uses indices). -/
abbrev StateId := Nat

/-- Tag-command list identifiers (`tcid_t`). -/
abbrev Tcid := Nat

/-- `TCID0` denotes the empty tag-command list. -/
def TCID0 : Tcid := 0

/-- Sentinel terminating a tag history array (`TAGVER_ZERO`). -/
def TAGVER_ZERO : Int := 0

/-- Sentinel for a negative history element (`TAGVER_BOTTOM`). -/
def TAGVER_BOTTOM : Int := -1

/-- One span of an outgoing-transitions group: an upper character bound and
the destination state (`Span`).  The source field `to` is renamed `dst`
because `to` is a Lean keyword. -/
structure Span where
  ub : Nat
  dst : StateId
deriving DecidableEq, Repr, Inhabited

/-- The outgoing-transitions group of a state (the fields of `CodeGo` used
by the embedded functions: the span array, the hoisted tag-command id and
the skip flag). -/
structure CodeGo where
  span : List Span
  tags : Tcid
  skip : Bool
deriving DecidableEq, Repr, Inhabited

/-- A leaf jump of a transition group (`CodeJump`).  The source field `to`
is renamed `dst` because `to` is a Lean keyword. -/
structure CodeJump where
  dst : StateId
  tags : Tcid
  skip : Bool
  elide : Bool
  eof : Bool
deriving DecidableEq, Repr, Inhabited

/-- A tag command (`tcmd_t`): left-hand and right-hand tag versions and the
history array.  The source stores the history as a `TAGVER_ZERO`-terminated
array; the embedding keeps the elements before the terminator, in storage
order. -/
structure Tcmd where
  lhs : Int
  rhs : Int
  history : List Int
deriving DecidableEq, Repr, Inhabited

/-- Modelled from the spec: `tcmd_t::iscopy` lives outside the embedded
file.  A copy command has no history elements. -/
def Tcmd.iscopy (c : Tcmd) : Bool := c.history.isEmpty

/-- Modelled from the spec: `tcmd_t::isset` lives outside the embedded
file.  A save-without-history command has exactly one history element. -/
def Tcmd.isset (c : Tcmd) : Bool := c.history.length == 1

/-- Modelled from the spec: `tcmd_t::isadd` lives outside the embedded
file.  A save-with-history command has at least two history elements. -/
def Tcmd.isadd (c : Tcmd) : Bool := 2 ≤ c.history.length

/-- A DFA state (the fields of `State` used by the embedded functions).
`fallbto` and `falltags` hold the result of `fallback_state_with_eof_rule`,
which is computed outside the embedded file; the spec lists fallback states
among the inputs of the code-generation phase. -/
structure State where
  label : Label
  action : ActionKind
  go : CodeGo
  fill : Nat
  fill_label : Option Label
  fill_state : StateId
  fallbto : StateId
  falltags : Tcid
deriving Repr, Inhabited

/-- A semantic action record (`SemAct`). -/
structure SemAct where
  cond : Option String
  autogen : Bool
  text : String
deriving DecidableEq, Repr, Inhabited

/-- A rule (`Rule`): its semantic action, tag range and capture count. -/
structure Rule where
  semact : SemAct
  ltag : Nat
  htag : Nat
  ncap : Nat
deriving DecidableEq, Repr, Inhabited

/-- Tag kinds, per the spec data model: fictive/structural, named, capture. -/
inductive TagKind
  | FICTIVE
  | NAMED
  | CAPTURE
deriving DecidableEq, Repr, Inhabited

/-- A tag (the fields of `Tag` used by `gen_fintags`).  `base = none`
stands for `Tag::RIGHTMOST` (the tag is fixed on the cursor). -/
structure Tag where
  kind : TagKind
  name : String
  trailing : Bool
  history : Bool
  fixed : Bool
  dist : Nat
  base : Option Nat
  toplevel : Bool
  lsub : Nat
  hsub : Nat
deriving DecidableEq, Repr, Inhabited

/-- Modelled from the spec: the `fictive` tag predicate (defined in
`src/regexp/tag.h`, outside the embedded file). -/
def fictive (t : Tag) : Bool := t.kind == TagKind.FICTIVE

/-- Modelled from the spec: the `capture` tag predicate. -/
def capture (t : Tag) : Bool := t.kind == TagKind.CAPTURE

/-- Modelled from the spec: the `trailing` tag predicate. -/
def trailing (t : Tag) : Bool := t.trailing

/-- Modelled from the spec: the `history` tag predicate. -/
def history (t : Tag) : Bool := t.history

/-- Modelled from the spec: the `fixed` tag predicate. -/
def fixed (t : Tag) : Bool := t.fixed

/-- The DFA (the fields of `Adfa` used by the embedded functions). -/
structure Adfa where
  states : List State
  cond : String
  setup : String
  tcpool : Tcid → List Tcmd
  mtagvers : List Int
  oldstyle_ctxmarker : Bool
  rules : List Rule
  tags : List Tag
  finvers : List Int
deriving Inhabited

/-- Dereference a state id (the source follows a `State*`). -/
def stateOf (dfa : Adfa) (i : StateId) : State := dfa.states.getD i default

/-- The option bundle (the fields of `opt_t` used by the embedded
functions). -/
structure Opts where
  target : Target
  code_model : CodeModel
  api : Api
  api_style : ApiStyle
  fill_enable : Bool
  fill_check : Bool
  fill_naked : Bool
  fill_param_enable : Bool
  fill_param : String
  fill_eof : Option Nat
  storable_state : Bool
  line_dirs : Bool
  indentation_sensitive : Bool
  api_cursor : String
  api_limit : String
  api_ctxmarker : String
  api_fill : String
  api_less_than : String
  api_backup_ctx : String
  api_sigil : String
  tags_expression : String
  tags_pfx : String
  label_pfx : String
  label_fill : String
  label_loop : String
  cond_enum_pfx : String
  cond_label_pfx : String
  cond_goto : String
  cond_goto_param : String
  var_state : String
  var_fill : String
deriving DecidableEq, Repr, Inhabited

/-- The `re2c:eof` option is disabled when `fill_eof` is the `NOEOF`
sentinel, modelled as `none`. -/
def eofRuleUsed (opts : Opts) : Bool := opts.fill_eof.isSome

/-- A condition used by an `if` code node.  The renderer is out of scope;
a less-than guard additionally records the character count it tests so
that theorems can speak about it. -/
inductive CExp
  | lessThan (n : Nat) (rendered : String)
  | txt (s : String)
deriving DecidableEq, Repr, Inhabited

/-- Structured code nodes (the subset of `Code` constructors produced by
the embedded functions, with the final textual rendering of API templates
out of scope). -/
inductive Code where
  | stmt (text : String)
  | text (text : String)
  | assign (lhs : List String) (op : Option String) (rhs : String)
  | peek
  | skip
  | backup
  | settag (tag : String) (negative : Bool) (history : Bool)
  | shiftTag (tag : String) (shift : Int) (history : Bool)
  | restoreCtx (tag : String)
  | fillStmt (naked : Bool) (arg : Option Nat) (call : String)
  | stateSet (state : String)
  | condSet (cond : String)
  | gotoL (label : String)
  | tailcall (fn : String)
  | slabel (label : String)
  | nlabel (index : Nat)
  | lineInfoInput
  | lineInfoOutput
  | skeletonAction (rule : Nat)
  | ifte (cond : CExp) (thenBr : List Code) (elseBr : List Code)
deriving Repr, Inhabited

/-- The first span destination of a state (`s->go.span[0].to`). -/
def spanDest0 (s : State) : StateId := (s.go.span.headD default).dst

/-- Whether a state is an end state (`endstate`): a single span whose
destination action is RULE or ACCEPT. -/
def endstate (dfa : Adfa) (s : State) : Bool :=
  let a := (stateOf dfa (spanDest0 s)).action
  s.go.span.length == 1 && (a == ActionKind.RULE || a == ActionKind.ACCEPT)

/-- Whether a state omits its own peek statement (`omit_peek`): the state
is a MOVE state, or it has a single transition to a non-MOVE state. -/
def omit_peek (dfa : Adfa) (s : State) : Bool :=
  s.action == ActionKind.MOVE
    || (s.go.span.length == 1
        && !((stateOf dfa (spanDest0 s)).action == ActionKind.MOVE))

/-- Emit the state-entry peek statement unless it is omitted (`gen_peek`).
The source appends to a statement list; the embedding returns the extended
list. -/
def gen_peek (dfa : Adfa) (s : State) (stmts : List Code) : List Code :=
  if !omit_peek dfa s then stmts ++ [Code.peek] else stmts

/-- Fuel-driven substring replacement on character lists; the fuel is the
length of the subject, which suffices because every step consumes at least
one character. -/
def replaceChars (pat val : List Char) : Nat → List Char → List Char
  | _, [] => []
  | 0, s => s
  | fuel + 1, c :: rest =>
    if pat.isPrefixOf (c :: rest) && !pat.isEmpty then
      val ++ replaceChars pat val fuel ((c :: rest).drop pat.length)
    else
      c :: replaceChars pat val fuel rest

/-- Replace every occurrence of `pat` in `s` by `val`. -/
def replaceStr (s pat val : String) : String :=
  String.mk (replaceChars pat.data val.data s.data.length s.data)

/-- Modelled from the spec: the `argsubst` template helper lives outside
the embedded file.  A named placeholder is the sigil followed by the
parameter name in braces; the bare sigil is the unnamed placeholder,
substituted only when permitted, and after the named one so that it is not
accidentally eaten. -/
def argsubst (tmpl sigil name : String) (allowUnnamed : Bool) (value : String) : String :=
  let named := replaceStr tmpl (sigil ++ "\x7b" ++ name ++ "\x7d") value
  if allowUnnamed then replaceStr named sigil value else named

/-- The name of a tag variable (`vartag_name`): m-tags get an extra "m"
so that they do not collide with s-tags. -/
def vartag_name (ver : Int) (pfx : String) (is_mtag : Bool) : String :=
  pfx ++ (if is_mtag then "m" else "") ++ toString ver

/-- The expression denoting a tag variable (`vartag_expr`): the tag name
substituted into the `tags_expression` template. -/
def vartag_expr (ver : Int) (opts : Opts) (is_mtag : Bool) : String :=
  argsubst opts.tags_expression opts.api_sigil "tag" true
    (vartag_name ver opts.tags_pfx is_mtag)

/-- The code emitted by `gen_settags` for one save-with-history command:
an optional self-copy followed by one tag-set per history element,
iterating the history in reverse. -/
def settagsAdd (opts : Opts) (dfa : Adfa) (p : Tcmd) : List Code :=
  let is_mtag := dfa.mtagvers.contains p.lhs
  let le := vartag_expr p.lhs opts is_mtag
  let re := vartag_expr p.rhs opts is_mtag
  (if p.lhs != p.rhs then [Code.assign [le] none re] else [])
    ++ p.history.reverse.map (fun v => Code.settag le (v == TAGVER_BOTTOM) true)

/-- The per-command loop of `gen_settags`.  Copy commands yield a single
assignment; save-with-history commands yield `settagsAdd`; save commands
yield a single tag-set under the generic API, and otherwise a run of
consecutive save commands is collected into a negative and a positive
vector assignment.  As in the source, the run reuses the m-tag flag
computed from the first command of the run. -/
def gen_settags_go (opts : Opts) (dfa : Adfa) : List Tcmd → List Code
  | [] => []
  | p :: next =>
    let is_mtag := dfa.mtagvers.contains p.lhs
    let le := vartag_expr p.lhs opts is_mtag
    let re := vartag_expr p.rhs opts is_mtag
    if Tcmd.iscopy p then
      Code.assign [le] none re :: gen_settags_go opts dfa next
    else if Tcmd.isadd p then
      settagsAdd opts dfa p ++ gen_settags_go opts dfa next
    else if opts.api == Api.CUSTOM then
      Code.settag le (p.history.headD 0 == TAGVER_BOTTOM) false
        :: gen_settags_go opts dfa next
    else if Tcmd.isset p then
      let run := p :: next.takeWhile Tcmd.isset
      let rest := next.dropWhile Tcmd.isset
      let neg := (run.filter (fun q => q.history.headD 0 == TAGVER_BOTTOM)).map
        (fun q => vartag_expr q.lhs opts is_mtag)
      let pos := (run.filter (fun q => !(q.history.headD 0 == TAGVER_BOTTOM))).map
        (fun q => vartag_expr q.lhs opts is_mtag)
      ((if neg.isEmpty then [] else [Code.assign neg none "NULL"])
        ++ (if pos.isEmpty then [] else [Code.assign pos none opts.api_cursor]))
        ++ gen_settags_go opts dfa rest
    else
      gen_settags_go opts dfa next
termination_by cmds => cmds.length
decreasing_by
  all_goals simp only [List.length_cons]
  all_goals first
    | exact Nat.lt_succ_self _
    | exact Nat.lt_succ_iff.mpr (List.Sublist.length_le (List.dropWhile_sublist _))

/-- Emit the code for a tag-command list (`gen_settags`).  With the
old-style context marker, a non-empty command list collapses to a single
backup of the cursor into the context marker. -/
def gen_settags (opts : Opts) (dfa : Adfa) (tcid : Tcid) : List Code :=
  if !(dfa.tcpool tcid).isEmpty && dfa.oldstyle_ctxmarker then
    if opts.api == Api.CUSTOM then
      if opts.api_style == ApiStyle.FUNCTIONS then
        [Code.stmt (opts.api_backup_ctx ++ "()")]
      else
        [Code.text opts.api_backup_ctx]
    else
      [Code.assign [opts.api_ctxmarker] none opts.api_cursor]
  else
    gen_settags_go opts dfa (dfa.tcpool tcid)

/-- The name of a fill label (`gen_fill_label`). -/
def gen_fill_label (opts : Opts) (index : Nat) : String :=
  opts.label_fill ++ toString index

/-- The index of a state's fill label (`s->fill_label->index`; the source
asserts the label is present). -/
def fillLabelIndex (s : State) : Nat := (s.fill_label.getD default).index

/-- Continue the `yystate` loop (`gen_continue_yyloop`): set the state
variable and re-enter the loop. -/
def gen_continue_yyloop (opts : Opts) (next : String) : List Code :=
  [Code.assign [opts.var_state] none next,
   Code.stmt ("continue" ++ (if opts.label_loop.isEmpty then "" else " " ++ opts.label_loop))]

/-- The rendered form of a less-than guard (`gen_less_than`). -/
def gen_less_than_str (opts : Opts) (n : Nat) : String :=
  if opts.api == Api.CUSTOM then
    if opts.api_style == ApiStyle.FUNCTIONS then
      opts.api_less_than ++ "(" ++ toString n ++ ")"
    else
      argsubst opts.api_less_than opts.api_sigil "len" true (toString n)
  else if n == 1 then
    opts.api_limit ++ " <= " ++ opts.api_cursor
  else
    "(" ++ opts.api_limit ++ " - " ++ opts.api_cursor ++ ") < " ++ toString n

/-- A less-than guard condition, recording the character count it tests. -/
def gen_less_than (opts : Opts) (n : Nat) : CExp :=
  CExp.lessThan n (gen_less_than_str opts n)

/-- The tag-command id actually attached to the fallback transition: when
tags are hoisted into the state, the duplicate on the transition is
suppressed by replacing it with `TCID0`. -/
def eff_falltags (s : State) : Tcid :=
  if s.go.tags != TCID0 then TCID0 else s.falltags

/-- The transfer statement of a fallback transition, per code model. -/
def fallback_transfer (opts : Opts) (dfa : Adfa) (fallback : StateId) : List Code :=
  match opts.code_model with
  | CodeModel.GOTO_LABEL =>
    [Code.gotoL (opts.label_pfx ++ toString (stateOf dfa fallback).label.index)]
  | CodeModel.LOOP_SWITCH =>
    gen_continue_yyloop opts (toString (stateOf dfa fallback).label.index)
  | CodeModel.REC_FUNC =>
    [Code.tailcall (opts.label_pfx ++ toString (stateOf dfa fallback).label.index)]

/-- The fallback transition emitted when a fill fails under the EOF rule
(`gen_fill_falllback`).  The transition is elided when the accompanying
jump has the same destination, the same tags and no skip, except in the
rec/func model with fill enabled, where both branches of the surrounding
`if` must end in tail calls.  The fallback state and its tags are the
result of `fallback_state_with_eof_rule`, stored on the state. -/
def gen_fill_falllback (opts : Opts) (dfa : Adfa) (fr : State) (jump : Option CodeJump) :
    List Code :=
  let falltags := eff_falltags fr
  let fallback := fr.fallbto
  let elide := match jump with
    | some j =>
      fallback == j.dst && falltags == j.tags && !j.skip
        && !(opts.code_model == CodeModel.REC_FUNC && opts.fill_enable)
    | none => false
  if elide then []
  else gen_settags opts dfa falltags ++ fallback_transfer opts dfa fallback

/-- Emit a conditional (`gen_if`): a single if/else in the rec/func model,
otherwise an `if` without an else branch followed by the second
transition. -/
def gen_if (opts : Opts) (cond : CExp) (trans1 trans2 : List Code) : List Code :=
  if opts.code_model == CodeModel.REC_FUNC then
    [Code.ifte cond trans1 trans2]
  else
    Code.ifte cond trans1 [] :: trans2

/-- The transition to the fill label after a fill (`gen_goto_after_fill`);
with storable state and the EOF rule it additionally handles fill failure
by inlining the fallback transition behind a one-character guard. -/
def gen_goto_after_fill (opts : Opts) (dfa : Adfa) (fr : State) (jump : Option CodeJump) :
    List Code :=
  let eof_rule := opts.fill_eof.isSome
  let s := stateOf dfa fr.fill_state
  let resume : List Code :=
    match opts.code_model with
    | CodeModel.GOTO_LABEL =>
      if opts.storable_state || eof_rule then
        [Code.gotoL (gen_fill_label opts (fillLabelIndex s))]
      else []
    | CodeModel.LOOP_SWITCH =>
      gen_continue_yyloop opts (toString s.label.index)
    | CodeModel.REC_FUNC =>
      [Code.tailcall (opts.label_pfx ++ toString s.label.index)]
  if opts.storable_state && eof_rule then
    gen_if opts (gen_less_than opts 1) (gen_fill_falllback opts dfa fr jump) resume
  else
    resume

/-- The rendered fill invocation: with the EOF rule there is no length
argument to substitute. -/
def fill_call_text (opts : Opts) (eof_rule : Bool) (need : Nat) : String :=
  let t := if !eof_rule then
      argsubst opts.api_fill opts.fill_param "len" true (toString need)
    else opts.api_fill
  if opts.fill_param_enable then
    t ++ "(" ++ (if !eof_rule then toString need else "") ++ ")"
  else t

/-- The character count a fill must make available (`need` in
`gen_fill`): 1 under the EOF rule, the state's fill count otherwise. -/
def fillNeed (opts : Opts) (fr : State) : Nat :=
  if opts.fill_eof.isSome then 1 else fr.fill

/-- The statements of a fill before the optional less-than guard (the
local `fill` list of `gen_fill`): an optional state-set for resumable
fills and the fill invocation, which under the EOF rule without storable
state is checked for failure, branching to either a rematch at the fill
label or the fallback transition. -/
def gen_fill_body (opts : Opts) (dfa : Adfa) (fr : State) (jump : Option CodeJump) :
    List Code :=
  let eof_rule := opts.fill_eof.isSome
  let need := fillNeed opts fr
  if opts.fill_enable then
    (if opts.storable_state then
      [Code.stateSet (toString (fillLabelIndex (stateOf dfa fr.fill_state)))]
     else [])
    ++
    (let call := fill_call_text opts eof_rule need
     if eof_rule && !opts.storable_state then
       let checked := call ++ (if opts.fill_naked then "" else " == 0")
       let pre := if !opts.var_fill.isEmpty then
           [Code.fillStmt opts.fill_naked none checked]
         else []
       let cond := CExp.txt (if !opts.var_fill.isEmpty then opts.var_fill else checked)
       let rematch := gen_goto_after_fill opts dfa fr jump
       let fallback := gen_fill_falllback opts dfa fr jump
       pre ++ gen_if opts cond rematch fallback
     else
       [Code.fillStmt opts.fill_naked (if eof_rule then none else some need) call])
  else if eof_rule && !opts.storable_state then
    gen_fill_falllback opts dfa fr jump
  else []

/-- Emit a fill (`gen_fill`): the fill statements, optionally behind a
less-than guard protecting both the fill and the tail. -/
def gen_fill (opts : Opts) (dfa : Adfa) (fr : State) (jump : Option CodeJump)
    (tail : List Code) : List Code :=
  if opts.fill_check && !(gen_fill_body opts dfa fr jump).isEmpty then
    gen_if opts (gen_less_than opts (fillNeed opts fr)) (gen_fill_body opts dfa fr jump) tail
  else
    gen_fill_body opts dfa fr jump ++ tail

/-- Emit the state-entry fill, EOF-rule tag operations and the fill label
(`gen_fill_and_label`). -/
def gen_fill_and_label (opts : Opts) (dfa : Adfa) (s : State) : List Code :=
  (if opts.fill_enable && !endstate dfa s && opts.fill_eof.isNone && decide (0 < s.fill) then
    gen_fill opts dfa s none []
   else [])
  ++ (if opts.fill_eof.isSome then gen_settags opts dfa s.go.tags else [])
  ++ (if s.fill_label.isSome && opts.code_model == CodeModel.GOTO_LABEL then
      [Code.slabel (gen_fill_label opts (fillLabelIndex s))]
     else [])

/-- The expression for a final tag (`fintag_expr`): in rec/func mode the
tag is a member of the state threaded through the state functions. -/
def fintag_expr (opts : Opts) (name : String) : String :=
  if opts.code_model == CodeModel.REC_FUNC then
    argsubst opts.tags_expression opts.api_sigil "tag" true name
  else name

/-- The capture indices `lsub, lsub+2, ..., hsub` of a capture tag. -/
def steps2 (l h : Nat) : List Nat :=
  (List.range ((h + 2 - l) / 2)).map (fun k => l + 2 * k)

/-- Expand a tag into the list of expressions it is stored to
(`expand_fintags`): nothing for trailing tags, the named expression for
named tags, and one array element per capture parenthesis for capture
tags. -/
def expand_fintags (opts : Opts) (tag : Tag) : List String :=
  if trailing tag then []
  else if !capture tag then [fintag_expr opts tag.name]
  else (steps2 tag.lsub tag.hsub).map
    (fun i => fintag_expr opts "yypmatch" ++ "[" ++ toString i ++ "]")

/-- Emit a tag shift (`gen_shift`): nothing when the shift is zero. -/
def gen_shift (shift : Int) (tag : String) (history : Bool) : List Code :=
  if shift == 0 then [] else [Code.shiftTag tag shift history]

/-- Assign the first of a list of expressions to all the others
(`gen_assign_many_to_first`); nothing when the list has at most one
element. -/
def gen_assign_many_to_first (many : List String) : List Code :=
  if many.length ≤ 1 then []
  else [Code.assign (many.drop 1) none (many.headD "")]

/-- The final tag version of tag `t` (`dfa.finvers[t]`). -/
def finver (dfa : Adfa) (t : Nat) : Int := dfa.finvers.getD t 0

/-- Accumulator of `gen_fintags`: the four code lists and the designated
negative tag. -/
structure FinAcc where
  varops : List Code
  fixops : List Code
  trailops : List Code
  fixpostops : List Code
  negtag : String
deriving Repr, Inhabited

/-- One iteration of the `gen_fintags` loop, for tag index `t`. -/
def gen_fintags_step (opts : Opts) (dfa : Adfa) (acc : FinAcc) (t : Nat) : FinAcc :=
  let generic := opts.api == Api.CUSTOM
  let tag := dfa.tags.getD t default
  if fictive tag then acc
  else
    let fintags := expand_fintags opts tag
    if !(fixed tag) then
      let expr := vartag_expr (finver dfa t) opts (history tag)
      if trailing tag then
        let notag := dfa.oldstyle_ctxmarker
        if generic then
          { acc with trailops := acc.trailops
              ++ [Code.restoreCtx (if notag then "" else expr)] }
        else
          { acc with trailops := acc.trailops
              ++ [Code.assign [opts.api_cursor] none
                    (if notag then opts.api_ctxmarker else expr)] }
      else
        { acc with varops := acc.varops ++ [Code.assign fintags none expr] }
    else
      let dist : Int := (tag.dist : Int)
      let fixed_on_cursor := tag.base.isNone
      let base := if fixed_on_cursor then opts.api_cursor
        else vartag_expr (finver dfa (tag.base.getD 0)) opts (history tag)
      if trailing tag then
        if generic then
          { acc with trailops := acc.trailops
              ++ (if !fixed_on_cursor then [Code.restoreCtx base] else [])
              ++ gen_shift (-dist) "" false }
        else if !fixed_on_cursor then
          { acc with trailops := acc.trailops
              ++ [Code.assign [opts.api_cursor] none
                    (base ++ (if tag.dist > 0 then " - " ++ toString tag.dist else ""))] }
        else
          { acc with trailops := acc.trailops
              ++ [Code.assign [opts.api_cursor] (some "-") (toString tag.dist)] }
      else
        let first := fintags.headD ""
        if generic then
          if fixed_on_cursor then
            { acc with fixops := acc.fixops
                ++ [Code.settag first false false]
                ++ gen_shift (-dist) first false
                ++ gen_assign_many_to_first fintags }
          else if dist == 0 then
            { acc with fixops := acc.fixops ++ [Code.assign fintags none base] }
          else if tag.toplevel then
            { acc with fixops := acc.fixops
                ++ [Code.assign [first] none base]
                ++ gen_shift (-dist) first false
                ++ gen_assign_many_to_first fintags }
          else
            let negtag := if acc.negtag.isEmpty then base else acc.negtag
            { acc with
                fixops := acc.fixops ++ [Code.assign [first] none base],
                fixpostops := acc.fixpostops
                  ++ [Code.ifte (CExp.txt (first ++ " != " ++ negtag))
                        (gen_shift (-dist) first false) []],
                negtag := negtag }
        else if dist == 0 then
          { acc with fixops := acc.fixops ++ [Code.assign fintags none base] }
        else if tag.toplevel then
          { acc with fixops := acc.fixops
              ++ [Code.assign fintags none (base ++ " - " ++ toString tag.dist)] }
        else
          { acc with fixops := acc.fixops
              ++ [Code.assign [first] none base,
                  Code.ifte (CExp.txt (base ++ " != NULL"))
                    [Code.stmt (first ++ " -= " ++ toString tag.dist)] []]
              ++ gen_assign_many_to_first fintags }

/-- Emit the final tag assignments of a matched rule (`gen_fintags`): the
match-count assignment, then variable tags, fixed tags, the trailing
cursor restore, and under the generic API the materialized no-match value
followed by the guarded fixed-tag shifts. -/
def gen_fintags (opts : Opts) (dfa : Adfa) (rule : Rule) : List Code :=
  let ncapCode := if rule.ncap > 0 then
      [Code.assign [fintag_expr opts "yynmatch"] none (toString rule.ncap)]
    else []
  let acc := (List.range' rule.ltag (rule.htag - rule.ltag)).foldl
    (gen_fintags_step opts dfa) ⟨[], [], [], [], ""⟩
  ncapCode ++ acc.varops ++ acc.fixops ++ acc.trailops
    ++ (if !acc.negtag.isEmpty then
          [Code.text "/* materialize no-match value */",
           Code.settag acc.negtag true false] ++ acc.fixpostops
        else [])

/-- The enum member name of a condition (`gen_cond_enum_elem`): its name
with the condition enum name prepended; the rendering template is out of
scope. -/
def gen_cond_enum_elem (opts : Opts) (name : String) : String :=
  opts.cond_enum_pfx ++ name

/-- The rule of a DFA by index. -/
def ruleOf (dfa : Adfa) (i : Nat) : Rule := dfa.rules.getD i default

/-- Emit the code of a matched rule (`emit_rule`): final tags, then for
the skeleton target the skeleton action, otherwise the optional state-set
and condition-set followed by the user action or the autogenerated jump to
the next condition. -/
def emit_rule (opts : Opts) (dfa : Adfa) (rule_idx : Nat) : List Code :=
  let rule := ruleOf dfa rule_idx
  let semact := rule.semact
  gen_fintags opts dfa rule
    ++ (if opts.target == Target.SKELETON then [Code.skeletonAction rule_idx]
        else
          let cond := semact.cond.getD dfa.cond
          let next_cond := gen_cond_enum_elem opts cond
          (if opts.storable_state then
            [Code.stateSet
              (if dfa.cond.isEmpty || !(opts.code_model == CodeModel.LOOP_SWITCH) then
                "-1" else next_cond)]
           else [])
          ++ (if cond != dfa.cond
                && !(opts.code_model == CodeModel.LOOP_SWITCH && opts.storable_state) then
               [Code.condSet next_cond]
              else [])
          ++ (if !semact.autogen then
                (if !dfa.setup.isEmpty then [Code.text dfa.setup] else [])
                ++ (if opts.line_dirs then [Code.lineInfoInput] else [])
                ++ (if opts.indentation_sensitive then
                      (semact.text.splitOn "\n").map Code.text
                    else [Code.text semact.text])
                ++ (if opts.line_dirs then [Code.lineInfoOutput] else [])
              else
                match opts.code_model with
                | CodeModel.GOTO_LABEL =>
                  [Code.text (argsubst opts.cond_goto opts.cond_goto_param "cond" true
                    (opts.cond_label_pfx ++ cond))]
                | CodeModel.LOOP_SWITCH => gen_continue_yyloop opts next_cond
                | CodeModel.REC_FUNC => [Code.tailcall ("yyfn" ++ cond)]))

/-- A start condition (`StartCond`): name and number. -/
structure StartCond where
  name : String
  number : Nat
deriving DecidableEq, Repr, Inhabited

/-- An output block (the fields of `OutputBlock` used by the directive
expanders). -/
structure OutputBlockM where
  name : String
  cond_enum_pfx : String
  conds : List StartCond
  max_fill : Nat
  max_nmatch : Nat
deriving DecidableEq, Repr, Inhabited

/-- Qualify a condition name with the block's condition enum name
(conditions with the same name but a different per-block enum name get
different entries). -/
def qualifyCond (blk : OutputBlockM) (cond : StartCond) : StartCond :=
  { cond with name := blk.cond_enum_pfx ++ cond.name }

/-- The duplicate check at the heart of `add_condition_from_block`: an
identical duplicate is skipped, a duplicate name with a different number
is an error, a fresh name is appended. -/
def addCond (conds : List StartCond) (cond : StartCond) : Except String (List StartCond) :=
  match conds.find? (fun c => c.name == cond.name) with
  | some c =>
    if c.number == cond.number then Except.ok conds
    else Except.error ("conditon " ++ cond.name ++ " has different numbers in different blocks")
  | none => Except.ok (conds ++ [cond])

/-- Add one block condition to the accumulated list
(`add_condition_from_block`): the name is qualified with the block's enum
name and then checked against the accumulated list. -/
def add_condition_from_block (blk : OutputBlockM) (conds : List StartCond)
    (cond : StartCond) : Except String (List StartCond) :=
  addCond conds (qualifyCond blk cond)

/-- Fold `addCond` over a list of already-qualified conditions, stopping
at the first error (the `CHECK_RET` propagation of the source loops). -/
def addConds (conds : List StartCond) : List StartCond → Except String (List StartCond)
  | [] => Except.ok conds
  | c :: cs =>
    match addCond conds c with
    | Except.ok conds' => addConds conds' cs
    | Except.error e => Except.error e

/-- Accumulate the conditions of a list of blocks
(`add_conditions_from_blocks`). -/
def add_conditions_from_blocks (blocks : List OutputBlockM) (conds : List StartCond) :
    Except String (List StartCond) :=
  match blocks with
  | [] => Except.ok conds
  | b :: bs =>
    match addConds conds (b.conds.map (qualifyCond b)) with
    | Except.ok conds' => add_conditions_from_blocks bs conds'
    | Except.error e => Except.error e

/-- Find the blocks listed in a directive (`find_blocks`): the output
blocks are searched before the header blocks, and a missing name is an
error. -/
def find_blocks (cblocks hblocks : List OutputBlockM) :
    List String → Except String (List OutputBlockM)
  | [] => Except.ok []
  | n :: ns =>
    match (cblocks ++ hblocks).find? (fun b => b.name == n) with
    | some b =>
      match find_blocks cblocks hblocks ns with
      | Except.ok bs => Except.ok (b :: bs)
      | Except.error e => Except.error e
    | none => Except.error ("cannot find block " ++ n)

/-- Expand a `types:re2c` directive (`expand_cond_enum`): gather the
conditions of the referenced blocks (all blocks when no names are given),
or fail.  The enum/text rendering of the gathered list is out of scope;
for a non-code target nothing is gathered and an empty item is emitted. -/
def expand_cond_enum (target : Target) (cblocks hblocks : List OutputBlockM)
    (block_names : Option (List String)) : Except String (List StartCond) :=
  if target != Target.CODE then Except.ok []
  else
    match block_names with
    | none =>
      match add_conditions_from_blocks cblocks [] with
      | Except.ok conds => add_conditions_from_blocks hblocks conds
      | Except.error e => Except.error e
    | some names =>
      match find_blocks cblocks hblocks names with
      | Except.ok bs => add_conditions_from_blocks bs []
      | Except.error e => Except.error e

/-- The two aggregating maximum directives. -/
inductive MaxKind
  | MAXFILL
  | MAXNMATCH
deriving DecidableEq, Repr, Inhabited

/-- Reduce the maximum over a list of blocks (`max_among_blocks`). -/
def max_among_blocks (blocks : List OutputBlockM) (mx : Nat) (kind : MaxKind) : Nat :=
  blocks.foldl
    (fun m b => Nat.max m (if kind == MaxKind.MAXFILL then b.max_fill else b.max_nmatch))
    mx

/-- Expand a `maxfill:re2c` or `maxnmatch:re2c` directive (`gen_yymax`),
returning the emitted constant (`none` for a non-code target, where the
directive expands to nothing). -/
def gen_yymax (target : Target) (cblocks hblocks : List OutputBlockM)
    (block_names : Option (List String)) (kind : MaxKind) : Except String (Option Nat) :=
  if target != Target.CODE then Except.ok none
  else
    match block_names with
    | none =>
      Except.ok (some (max_among_blocks hblocks (max_among_blocks cblocks 1 kind) kind))
    | some names =>
      match find_blocks cblocks hblocks names with
      | Except.ok bs => Except.ok (some (max_among_blocks bs 1 kind))
      | Except.error e => Except.error e

mutual

/-- Whether a code node contains a fill invocation. -/
def hasFillC : Code → Bool
  | Code.fillStmt _ _ _ => true
  | Code.ifte _ t e => hasFillL t || hasFillL e
  | _ => false

/-- Whether a code list contains a fill invocation. -/
def hasFillL : List Code → Bool
  | [] => false
  | c :: cs => hasFillC c || hasFillL cs

end

mutual

/-- The values of the state-set statements in a code node. -/
def stateSetsC : Code → List String
  | Code.stateSet v => [v]
  | Code.ifte _ t e => stateSetsL t ++ stateSetsL e
  | _ => []

/-- The values of the state-set statements in a code list. -/
def stateSetsL : List Code → List String
  | [] => []
  | c :: cs => stateSetsC c ++ stateSetsL cs

end

mutual

/-- The character counts of the less-than guards in a code node. -/
def ltGuardsC : Code → List Nat
  | Code.ifte c t e =>
    (match c with | CExp.lessThan n _ => [n] | CExp.txt _ => []) ++ ltGuardsL t ++ ltGuardsL e
  | _ => []

/-- The character counts of the less-than guards in a code list. -/
def ltGuardsL : List Code → List Nat
  | [] => []
  | c :: cs => ltGuardsC c ++ ltGuardsL cs

end

mutual

/-- The length arguments of the fill invocations in a code node. -/
def fillArgsC : Code → List (Option Nat)
  | Code.fillStmt _ a _ => [a]
  | Code.ifte _ t e => fillArgsL t ++ fillArgsL e
  | _ => []

/-- The length arguments of the fill invocations in a code list. -/
def fillArgsL : List Code → List (Option Nat)
  | [] => []
  | c :: cs => fillArgsC c ++ fillArgsL cs

end

/-- Whether a code node is a (vector) assignment. -/
def isVecAssign : Code → Bool
  | Code.assign _ _ _ => true
  | _ => false

/-- The vector assignments that materialize a run of consecutive
save-without-history commands under the default API: one negative
assignment to NULL and one positive assignment to the cursor, each present
only when its class of tags is non-empty.  As in `gen_settags`, the m-tag
flag of the first command of the run is used for the whole run. -/
def saveRunAssigns (opts : Opts) (dfa : Adfa) (run : List Tcmd) : List Code :=
  match run with
  | [] => []
  | p :: _ =>
    let is_mtag := dfa.mtagvers.contains p.lhs
    let neg := (run.filter (fun q => q.history.headD 0 == TAGVER_BOTTOM)).map
      (fun q => vartag_expr q.lhs opts is_mtag)
    let pos := (run.filter (fun q => !(q.history.headD 0 == TAGVER_BOTTOM))).map
      (fun q => vartag_expr q.lhs opts is_mtag)
    (if neg.isEmpty then [] else [Code.assign neg none "NULL"])
      ++ (if pos.isEmpty then [] else [Code.assign pos none opts.api_cursor])

/-- Whether a code node is one of the plain tag operations that
`gen_settags` can produce. -/
def isPlainTagOp : Code → Bool
  | Code.assign _ _ _ => true
  | Code.settag _ _ _ => true
  | Code.stmt _ => true
  | Code.text _ => true
  | _ => false

/-- A list of start conditions is consistent when equal names imply equal
numbers. -/
def consistentConds (M : List StartCond) : Prop :=
  ∀ c1 ∈ M, ∀ c2 ∈ M, c1.name = c2.name → c1.number = c2.number

/-- The conditions of a list of blocks, with names qualified by each
block's enum name, in block order. -/
def qualifiedConds (blocks : List OutputBlockM) : List StartCond :=
  blocks.foldr (fun b r => b.conds.map (qualifyCond b) ++ r) []

/-- The per-block maximum selected by a `maxfill:re2c`/`maxnmatch:re2c`
directive. -/
def blockMax (kind : MaxKind) (b : OutputBlockM) : Nat :=
  if kind == MaxKind.MAXFILL then b.max_fill else b.max_nmatch

/-- The maximum of the per-block maxima of a list of blocks. -/
def blocksMax (kind : MaxKind) (blocks : List OutputBlockM) : Nat :=
  blocks.foldr (fun b m => Nat.max (blockMax kind b) m) 0

/-- A sample option bundle with the default API (fixed primitives). -/
def optsFix : Opts := {
  target := Target.CODE
  code_model := CodeModel.GOTO_LABEL
  api := Api.DEFAULT
  api_style := ApiStyle.FUNCTIONS
  fill_enable := true
  fill_check := true
  fill_naked := false
  fill_param_enable := true
  fill_param := "@@"
  fill_eof := none
  storable_state := false
  line_dirs := false
  indentation_sensitive := false
  api_cursor := "YYCURSOR"
  api_limit := "YYLIMIT"
  api_ctxmarker := "YYCTXMARKER"
  api_fill := "YYFILL"
  api_less_than := "YYLESSTHAN"
  api_backup_ctx := "YYBACKUPCTX"
  api_sigil := "@@"
  tags_expression := "@@"
  tags_pfx := "yyt"
  label_pfx := "yy"
  label_fill := "yyFillLabel"
  label_loop := ""
  cond_enum_pfx := "yyc"
  cond_label_pfx := "yyc_"
  cond_goto := "goto @@"
  cond_goto_param := "@@"
  var_state := "yystate"
  var_fill := ""
}

/-- A sample option bundle with a free-form API template. -/
def optsFree : Opts :=
  { optsFix with api := Api.CUSTOM, api_style := ApiStyle.FREEFORM }

/-- A sample option bundle with the EOF rule enabled. -/
def optsEof : Opts := { optsFix with fill_eof := some 0 }

/-- A sample state whose fallback transition coincides with its jump. -/
def stF : State := {
  label := ⟨1, true⟩
  action := ActionKind.MATCH
  go := { span := [⟨256, 0⟩], tags := 0, skip := false }
  fill := 1
  fill_label := some ⟨0, true⟩
  fill_state := 0
  fallbto := 7
  falltags := 0
}

/-- A sample jump matching the fallback of `stF`. -/
def jF : CodeJump := { dst := 7, tags := 0, skip := false, elide := false, eof := true }

/-- A sample state with a hoisted tag-action. -/
def stH : State := {
  label := ⟨2, true⟩
  action := ActionKind.SAVE
  go := { span := [⟨256, 1⟩], tags := 3, skip := false }
  fill := 1
  fill_label := none
  fill_state := 2
  fallbto := 5
  falltags := 3
}

/-- A sample non-end state requiring two characters. -/
def stE : State := {
  label := ⟨3, true⟩
  action := ActionKind.MATCH
  go := { span := [⟨128, 0⟩, ⟨256, 1⟩], tags := 0, skip := false }
  fill := 2
  fill_label := none
  fill_state := 3
  fallbto := 0
  falltags := 0
}

/-- A sample output block reporting a zero maximum fill. -/
def blkB : OutputBlockM := {
  name := "b"
  cond_enum_pfx := ""
  conds := []
  max_fill := 0
  max_nmatch := 7
}

/-- A sample output block defining condition x with number 0. -/
def blkA : OutputBlockM := {
  name := "a"
  cond_enum_pfx := "p"
  conds := [⟨"x", 0⟩]
  max_fill := 0
  max_nmatch := 0
}

/-- A sample output block defining condition x with number 1. -/
def blkC : OutputBlockM := {
  name := "c"
  cond_enum_pfx := "p"
  conds := [⟨"x", 1⟩]
  max_fill := 0
  max_nmatch := 0
}

/-- A sample DFA with no states or tags. -/
def dfa0 : Adfa := {
  states := []
  cond := ""
  setup := ""
  tcpool := fun _ => []
  mtagvers := []
  oldstyle_ctxmarker := false
  rules := []
  tags := []
  finvers := []
}

/-- A sample option bundle: rec/func model with storable state. -/
def opts7 : Opts :=
  { optsFix with code_model := CodeModel.REC_FUNC, storable_state := true }

/-- A sample DFA for condition c1 with one autogenerated rule. -/
def dfa7 : Adfa :=
  { dfa0 with
      cond := "c1"
      rules := [{ semact := { cond := none, autogen := true, text := "" },
                  ltag := 0, htag := 0, ncap := 0 }] }

/-! ## Theorems -/

theorem hasFillL_eq_any (l : List Code) : hasFillL l = l.any hasFillC := by
  induction l with
  | nil => simp [hasFillL]
  | cons c cs ih => simp [hasFillL, ih]

theorem hasFillL_append (a b : List Code) :
    hasFillL (a ++ b) = (hasFillL a || hasFillL b) := by
  simp [hasFillL_eq_any, Bool.or_assoc]

theorem ltGuardsL_append (a b : List Code) :
    ltGuardsL (a ++ b) = ltGuardsL a ++ ltGuardsL b := by
  induction a with
  | nil => simp [ltGuardsL]
  | cons c cs ih => simp [ltGuardsL, ih]

theorem fillArgsL_append (a b : List Code) :
    fillArgsL (a ++ b) = fillArgsL a ++ fillArgsL b := by
  induction a with
  | nil => simp [fillArgsL]
  | cons c cs ih => simp [fillArgsL, ih]

theorem stateSetsL_append (a b : List Code) :
    stateSetsL (a ++ b) = stateSetsL a ++ stateSetsL b := by
  induction a with
  | nil => simp [stateSetsL]
  | cons c cs ih => simp [stateSetsL, ih]

theorem plain_no_fill {l : List Code} (h : ∀ c ∈ l, isPlainTagOp c = true) :
    hasFillL l = false := by
  induction l with
  | nil => simp [hasFillL]
  | cons c cs ih =>
    have hc := h c (by simp)
    have hcs := ih (fun d hd => h d (by simp [hd]))
    cases c <;> simp_all [isPlainTagOp, hasFillL, hasFillC]

theorem plain_no_ltGuards {l : List Code} (h : ∀ c ∈ l, isPlainTagOp c = true) :
    ltGuardsL l = [] := by
  induction l with
  | nil => simp [ltGuardsL]
  | cons c cs ih =>
    have hc := h c (by simp)
    have hcs := ih (fun d hd => h d (by simp [hd]))
    cases c <;> simp_all [isPlainTagOp, ltGuardsL, ltGuardsC]

theorem plain_no_fillArgs {l : List Code} (h : ∀ c ∈ l, isPlainTagOp c = true) :
    fillArgsL l = [] := by
  induction l with
  | nil => simp [fillArgsL]
  | cons c cs ih =>
    have hc := h c (by simp)
    have hcs := ih (fun d hd => h d (by simp [hd]))
    cases c <;> simp_all [isPlainTagOp, fillArgsL, fillArgsC]

theorem plain_no_stateSets {l : List Code} (h : ∀ c ∈ l, isPlainTagOp c = true) :
    stateSetsL l = [] := by
  induction l with
  | nil => simp [stateSetsL]
  | cons c cs ih =>
    have hc := h c (by simp)
    have hcs := ih (fun d hd => h d (by simp [hd]))
    cases c <;> simp_all [isPlainTagOp, stateSetsL, stateSetsC]

theorem gen_settags_go_nil (opts : Opts) (dfa : Adfa) :
    gen_settags_go opts dfa [] = [] := by
  simp [gen_settags_go]

theorem settagsAdd_plain (opts : Opts) (dfa : Adfa) (p : Tcmd) :
    ∀ c ∈ settagsAdd opts dfa p, isPlainTagOp c = true := by
  intro c hc
  simp only [settagsAdd, List.mem_append] at hc
  rcases hc with hc | hc
  · rcases (by split at hc <;> simp_all : c = Code.assign
      [vartag_expr p.lhs opts (dfa.mtagvers.contains p.lhs)] none
      (vartag_expr p.rhs opts (dfa.mtagvers.contains p.lhs))) with rfl
    simp [isPlainTagOp]
  · simp only [List.mem_map] at hc
    obtain ⟨v, -, rfl⟩ := hc
    simp [isPlainTagOp]

theorem gen_settags_go_plain_fuel (opts : Opts) (dfa : Adfa) :
    ∀ n (cmds : List Tcmd), cmds.length ≤ n →
      ∀ c ∈ gen_settags_go opts dfa cmds, isPlainTagOp c = true := by
  intro n
  induction n with
  | zero =>
    intro cmds hlen
    have h0 : cmds = [] := List.length_eq_zero.mp (Nat.le_zero.mp hlen)
    subst h0
    simp [gen_settags_go]
  | succ n ih =>
    intro cmds hlen
    match cmds with
    | [] => simp [gen_settags_go]
    | p :: next =>
      have hnext : next.length ≤ n := by simpa using hlen
      intro c hc
      simp only [gen_settags_go] at hc
      split at hc
      · rcases List.mem_cons.mp hc with rfl | hc
        · simp [isPlainTagOp]
        · exact ih next hnext c hc
      · split at hc
        · rcases List.mem_append.mp hc with hc | hc
          · exact settagsAdd_plain opts dfa p c hc
          · exact ih next hnext c hc
        · split at hc
          · rcases List.mem_cons.mp hc with rfl | hc
            · simp [isPlainTagOp]
            · exact ih next hnext c hc
          · split at hc
            · rcases List.mem_append.mp hc with hc | hc
              · rcases List.mem_append.mp hc with hc | hc <;>
                  (split at hc <;> simp_all [isPlainTagOp])
              · exact ih (next.dropWhile Tcmd.isset)
                  (le_trans (List.Sublist.length_le (List.dropWhile_sublist _)) hnext) c hc
            · exact ih next hnext c hc

theorem gen_settags_go_plain (opts : Opts) (dfa : Adfa) (cmds : List Tcmd) :
    ∀ c ∈ gen_settags_go opts dfa cmds, isPlainTagOp c = true :=
  gen_settags_go_plain_fuel opts dfa cmds.length cmds le_rfl

theorem gen_settags_plain (opts : Opts) (dfa : Adfa) (tcid : Tcid) :
    ∀ c ∈ gen_settags opts dfa tcid, isPlainTagOp c = true := by
  intro c hc
  unfold gen_settags at hc
  split at hc
  · split at hc
    · split at hc <;> simp_all [isPlainTagOp]
    · simp_all [isPlainTagOp]
  · exact gen_settags_go_plain opts dfa _ c hc

theorem takeWhile_append_all {α} (P : α → Bool) (l r : List α)
    (hl : ∀ x ∈ l, P x = true) (hr : ∀ q ∈ r.head?, P q = false) :
    (l ++ r).takeWhile P = l := by
  induction l with
  | nil =>
    cases r with
    | nil => simp
    | cons a t =>
      have ha : P a = false := hr a (by simp)
      simp [List.takeWhile_cons, ha]
  | cons a t ih =>
    have ha : P a = true := hl a (by simp)
    simp [List.takeWhile_cons, ha, ih (fun x hx => hl x (by simp [hx]))]

theorem dropWhile_append_all {α} (P : α → Bool) (l r : List α)
    (hl : ∀ x ∈ l, P x = true) (hr : ∀ q ∈ r.head?, P q = false) :
    (l ++ r).dropWhile P = r := by
  induction l with
  | nil =>
    cases r with
    | nil => simp
    | cons a t =>
      have ha : P a = false := hr a (by simp)
      simp [List.dropWhile_cons, ha]
  | cons a t ih =>
    have ha : P a = true := hl a (by simp)
    simp [List.dropWhile_cons, ha, ih (fun x hx => hl x (by simp [hx]))]

/-- C1: a peek statement is emitted at state entry exactly when the state
is not omitted by the `omit_peek` rule, and `omit_peek` holds exactly when
the state is a MOVE state or has a single outgoing span whose destination
is not a MOVE state. -/
theorem gen_peek_iff_not_omit (dfa : Adfa) (s : State) (stmts : List Code) :
    (gen_peek dfa s stmts = stmts ++ if omit_peek dfa s then [] else [Code.peek]) ∧
    (omit_peek dfa s = true ↔
      s.action = ActionKind.MOVE
        ∨ (s.go.span.length = 1
            ∧ (stateOf dfa (spanDest0 s)).action ≠ ActionKind.MOVE)) := by
  constructor
  · by_cases h : omit_peek dfa s <;> simp [gen_peek, h]
  · simp [omit_peek]

/-- C5: a save-with-history command emits an assignment of the rhs tag
expression to the lhs tag expression exactly when lhs and rhs differ,
followed by one tag-set per history element in reverse of storage order,
negative exactly for the elements equal to `TAGVER_BOTTOM`. -/
theorem settags_save_with_history (opts : Opts) (dfa : Adfa) (p : Tcmd) (next : List Tcmd)
    (h : Tcmd.isadd p = true) :
    gen_settags_go opts dfa (p :: next) =
      ((if p.lhs = p.rhs then []
        else [Code.assign [vartag_expr p.lhs opts (dfa.mtagvers.contains p.lhs)] none
                (vartag_expr p.rhs opts (dfa.mtagvers.contains p.lhs))])
        ++ p.history.reverse.map
            (fun v => Code.settag (vartag_expr p.lhs opts (dfa.mtagvers.contains p.lhs))
              (v == TAGVER_BOTTOM) true))
      ++ gen_settags_go opts dfa next := by
  have hlen : 2 ≤ p.history.length := by simpa [Tcmd.isadd] using h
  have hcopy : Tcmd.iscopy p = false := by
    cases hh : p.history with
    | nil => rw [hh] at hlen; simp at hlen
    | cons a t => simp [Tcmd.iscopy, hh]
  simp only [gen_settags_go, hcopy, h, Bool.false_eq_true, if_false, if_true]
  simp only [settagsAdd]
  by_cases he : p.lhs = p.rhs <;> simp [he]

theorem settags_save_with_history_witness :
    Tcmd.isadd ⟨2, 3, [1, -1]⟩ = true ∧
    gen_settags_go optsFix dfa0 [⟨2, 3, [1, -1]⟩] =
      [Code.assign ["yyt2"] none "yyt3",
       Code.settag "yyt2" true true,
       Code.settag "yyt2" false true] := by
  refine ⟨by decide, ?_⟩
  rw [settags_save_with_history optsFix dfa0 ⟨2, 3, [1, -1]⟩ [] (by decide),
      gen_settags_go_nil]
  rfl

/-- C6 (amended): under the default (fixed) API, a maximal run of
consecutive save-without-history commands is materialized by at most two
vector assignments: one assigning NULL to the tags whose first history
element is `TAGVER_BOTTOM` (present only when there is such a tag) and one
assigning the cursor expression to the tags whose first history element is
positive (present only when there is such a tag); the run stops at the
first non-save command.  Under the custom API (FREEFORM or FUNCTIONS
style) each save command instead yields a single tag-set. -/
theorem settags_save_run_fixed_api (opts : Opts) (dfa : Adfa) (p : Tcmd)
    (run rest : List Tcmd)
    (hapi : opts.api = Api.DEFAULT)
    (hp : Tcmd.isset p = true)
    (hrun : ∀ q ∈ run, Tcmd.isset q = true)
    (hrest : ∀ q ∈ rest.head?, Tcmd.isset q = false) :
    gen_settags_go opts dfa (p :: (run ++ rest)) =
      saveRunAssigns opts dfa (p :: run) ++ gen_settags_go opts dfa rest ∧
    (saveRunAssigns opts dfa (p :: run)).all isVecAssign = true ∧
    (saveRunAssigns opts dfa (p :: run)).length ≤ 2 := by
  have hlen : p.history.length = 1 := by simpa [Tcmd.isset] using hp
  have hcopy : Tcmd.iscopy p = false := by
    cases hh : p.history with
    | nil => rw [hh] at hlen; simp at hlen
    | cons a t => simp [Tcmd.iscopy, hh]
  have hadd : Tcmd.isadd p = false := by
    simp [Tcmd.isadd, hlen]
  have hcust : (opts.api == Api.CUSTOM) = false := by
    simp [hapi]
  refine ⟨?_, ?_, ?_⟩
  · simp only [gen_settags_go, hcopy, hadd, hcust, hp, Bool.false_eq_true, if_false, if_true]
    rw [takeWhile_append_all Tcmd.isset run rest hrun hrest,
        dropWhile_append_all Tcmd.isset run rest hrun hrest]
    simp [saveRunAssigns, List.append_assoc]
  · simp only [saveRunAssigns]
    split <;> split <;> simp [isVecAssign]
  · simp only [saveRunAssigns]
    split <;> split <;> simp

theorem settags_save_run_fixed_api_witness :
    Tcmd.isset ⟨4, 0, [1]⟩ = true ∧
    gen_settags_go optsFix dfa0 [⟨4, 0, [1]⟩, ⟨5, 0, [-1]⟩] =
      [Code.assign ["yyt5"] none "NULL", Code.assign ["yyt4"] none "YYCURSOR"] := by
  refine ⟨by decide, ?_⟩
  have h := (settags_save_run_fixed_api optsFix dfa0 ⟨4, 0, [1]⟩ [⟨5, 0, [-1]⟩] []
    rfl (by decide) (by decide) (by simp)).1
  rw [show ([⟨4, 0, [1]⟩, ⟨5, 0, [-1]⟩] : List Tcmd)
        = ⟨4, 0, [1]⟩ :: ([⟨5, 0, [-1]⟩] ++ []) from rfl,
      h, gen_settags_go_nil]
  rfl

/-- C6, counterexample to the claim as stated: under the FREEFORM API a
run of two save-without-history commands yields two single tag-sets, not
two vector assignments (the vector-assignment path is taken under the
default API, not the custom one). -/
theorem settags_freeform_run_no_vector_assign :
    optsFree.api_style = ApiStyle.FREEFORM ∧
    Tcmd.isset ⟨4, 0, [1]⟩ = true ∧ Tcmd.isset ⟨5, 0, [-1]⟩ = true ∧
    gen_settags_go optsFree dfa0 [⟨4, 0, [1]⟩, ⟨5, 0, [-1]⟩] =
      [Code.settag "yyt4" false false, Code.settag "yyt5" true false] ∧
    ((gen_settags_go optsFree dfa0 [⟨4, 0, [1]⟩, ⟨5, 0, [-1]⟩]).filter isVecAssign).length
      = 0 := by
  have h1 : gen_settags_go optsFree dfa0 [⟨4, 0, [1]⟩, ⟨5, 0, [-1]⟩] =
      Code.settag "yyt4" false false :: gen_settags_go optsFree dfa0 [⟨5, 0, [-1]⟩] := by
    simp only [gen_settags_go]
    norm_num [Tcmd.iscopy, Tcmd.isadd, optsFree, optsFix]
    exact ⟨by decide, by decide⟩
  have h2 : gen_settags_go optsFree dfa0 [⟨5, 0, [-1]⟩] =
      Code.settag "yyt5" true false :: gen_settags_go optsFree dfa0 [] := by
    simp only [gen_settags_go]
    norm_num [Tcmd.iscopy, Tcmd.isadd, optsFree, optsFix]
    exact ⟨by decide, by decide⟩
  rw [gen_settags_go_nil] at h2
  refine ⟨rfl, by decide, by decide, ?_, ?_⟩
  · rw [h1, h2]
  · rw [h1, h2]; rfl

theorem fallback_transfer_ne_nil (opts : Opts) (dfa : Adfa) (fb : StateId) :
    fallback_transfer opts dfa fb ≠ [] := by
  unfold fallback_transfer gen_continue_yyloop
  cases opts.code_model <;> simp

theorem elide_cond_iff (opts : Opts) (fr : State) (j : CodeJump) :
    (fr.fallbto == j.dst && (eff_falltags fr == j.tags) && !j.skip
      && !(opts.code_model == CodeModel.REC_FUNC && opts.fill_enable)) = true ↔
    (j.dst = fr.fallbto ∧ j.tags = eff_falltags fr ∧ j.skip = false
      ∧ ¬(opts.code_model = CodeModel.REC_FUNC ∧ opts.fill_enable = true)) := by
  simp only [Bool.and_eq_true, beq_iff_eq, Bool.not_eq_true']
  constructor
  · rintro ⟨⟨⟨h1, h2⟩, h3⟩, h4⟩
    refine ⟨h1.symm, h2.symm, h3, ?_⟩
    rintro ⟨hm, hf⟩
    rw [hm, hf] at h4
    simp at h4
  · rintro ⟨h1, h2, h3, h4⟩
    refine ⟨⟨⟨h1.symm, h2.symm⟩, h3⟩, ?_⟩
    by_cases hm : opts.code_model = CodeModel.REC_FUNC
    · have hf : opts.fill_enable = false := by
        cases hfe : opts.fill_enable
        · rfl
        · exact absurd ⟨hm, hfe⟩ h4
      simp [hm, hf]
    · simp [hm]

/-- C3: the fallback transition produced by `gen_fill_falllback` is empty
(elided) exactly when the accompanying jump is present, goes to the
fallback state, carries the fallback's (suppression-adjusted) tag-command
id and has no skip flag — and the code model is not rec/func with fill
enabled. -/
theorem fill_fallback_elided_iff (opts : Opts) (dfa : Adfa) (fr : State)
    (jump : Option CodeJump) (heof : opts.fill_eof.isSome = true) :
    gen_fill_falllback opts dfa fr jump = [] ↔
      ((∃ j, jump = some j ∧ j.dst = fr.fallbto ∧ j.tags = eff_falltags fr
          ∧ j.skip = false)
        ∧ ¬(opts.code_model = CodeModel.REC_FUNC ∧ opts.fill_enable = true)) := by
  have htrans := fallback_transfer_ne_nil opts dfa fr.fallbto
  cases jump with
  | none => simp [gen_fill_falllback, htrans]
  | some j =>
    simp only [gen_fill_falllback, Option.some.injEq]
    constructor
    · intro h
      by_cases hC : (fr.fallbto == j.dst && (eff_falltags fr == j.tags) && !j.skip
          && !(opts.code_model == CodeModel.REC_FUNC && opts.fill_enable)) = true
      · have hh := (elide_cond_iff opts fr j).mp hC
        exact ⟨⟨j, rfl, hh.1, hh.2.1, hh.2.2.1⟩, hh.2.2.2⟩
      · rw [if_neg hC] at h
        exact absurd h (by simp [htrans])
    · rintro ⟨⟨j', hj, h1, h2, h3⟩, h4⟩
      cases hj
      rw [if_pos ((elide_cond_iff opts fr j).mpr ⟨h1, h2, h3, h4⟩)]

theorem fill_fallback_elided_iff_witness :
    gen_fill_falllback optsEof dfa0 stF (some jF) = [] := by
  refine (fill_fallback_elided_iff optsEof dfa0 stF (some jF) (by decide)).mpr
    ⟨⟨jF, rfl, by decide, by decide, by decide⟩, by decide⟩

/-- C4: with a hoisted tag-action on the state, the fallback transition's
tag-command id coincides with the hoisted one (the source asserts this,
here a hypothesis), the duplicate is suppressed by replacing it with
`TCID0`, and the emitted fallback transition carries no tag operations:
it is either elided or exactly the transfer statement. -/
theorem hoisted_tags_fallback_suppressed (opts : Opts) (dfa : Adfa) (fr : State)
    (jump : Option CodeJump)
    (hhoist : fr.go.tags ≠ TCID0)
    (hdcheck : fr.falltags = fr.go.tags)
    (hpool : dfa.tcpool TCID0 = []) :
    eff_falltags fr = TCID0 ∧
    gen_settags opts dfa (eff_falltags fr) = [] ∧
    (gen_fill_falllback opts dfa fr jump = []
      ∨ gen_fill_falllback opts dfa fr jump = fallback_transfer opts dfa fr.fallbto) := by
  have he : eff_falltags fr = TCID0 := by simp [eff_falltags, hhoist]
  have hs : gen_settags opts dfa TCID0 = [] := by
    unfold gen_settags
    rw [hpool]
    simp [gen_settags_go_nil]
  refine ⟨he, by rw [he]; exact hs, ?_⟩
  simp only [gen_fill_falllback]
  split
  · exact Or.inl rfl
  · rw [he, hs]
    simp

theorem fallback_no_hasFill (opts : Opts) (dfa : Adfa) (fr : State) (jump : Option CodeJump) :
    hasFillL (gen_fill_falllback opts dfa fr jump) = false := by
  simp only [gen_fill_falllback]
  split
  · simp [hasFillL]
  · rw [hasFillL_append, plain_no_fill (gen_settags_plain opts dfa (eff_falltags fr))]
    unfold fallback_transfer gen_continue_yyloop
    cases opts.code_model <;> simp [hasFillL, hasFillC]

theorem fallback_no_fillArgs (opts : Opts) (dfa : Adfa) (fr : State) (jump : Option CodeJump) :
    fillArgsL (gen_fill_falllback opts dfa fr jump) = [] := by
  simp only [gen_fill_falllback]
  split
  · simp [fillArgsL]
  · rw [fillArgsL_append, plain_no_fillArgs (gen_settags_plain opts dfa (eff_falltags fr))]
    unfold fallback_transfer gen_continue_yyloop
    cases opts.code_model <;> simp [fillArgsL, fillArgsC]

theorem fallback_no_ltGuards (opts : Opts) (dfa : Adfa) (fr : State) (jump : Option CodeJump) :
    ltGuardsL (gen_fill_falllback opts dfa fr jump) = [] := by
  simp only [gen_fill_falllback]
  split
  · simp [ltGuardsL]
  · rw [ltGuardsL_append, plain_no_ltGuards (gen_settags_plain opts dfa (eff_falltags fr))]
    unfold fallback_transfer gen_continue_yyloop
    cases opts.code_model <;> simp [ltGuardsL, ltGuardsC]

theorem goto_after_fill_no_fillArgs (opts : Opts) (dfa : Adfa) (fr : State)
    (jump : Option CodeJump) (hst : opts.storable_state = false) :
    fillArgsL (gen_goto_after_fill opts dfa fr jump) = [] := by
  simp only [gen_goto_after_fill, hst, Bool.false_and, Bool.false_or, if_false]
  cases hcm : opts.code_model <;>
    simp [hcm, gen_continue_yyloop, fillArgsL, fillArgsC]
  split <;> simp [fillArgsL, fillArgsC]

theorem goto_after_fill_no_ltGuards (opts : Opts) (dfa : Adfa) (fr : State)
    (jump : Option CodeJump) (hst : opts.storable_state = false) :
    ltGuardsL (gen_goto_after_fill opts dfa fr jump) = [] := by
  simp only [gen_goto_after_fill, hst, Bool.false_and, Bool.false_or, if_false]
  cases hcm : opts.code_model <;>
    simp [hcm, gen_continue_yyloop, ltGuardsL, ltGuardsC]
  split <;> simp [ltGuardsL, ltGuardsC]

theorem gen_fill_body_has_fill (opts : Opts) (dfa : Adfa) (s : State) (jump : Option CodeJump)
    (h1 : opts.fill_enable = true) (h2 : opts.fill_eof = none) :
    hasFillL (gen_fill_body opts dfa s jump) = true := by
  by_cases hst : opts.storable_state = true <;>
    simp [gen_fill_body, h1, h2, hst, hasFillL_append, hasFillL, hasFillC]

theorem gen_fill_body_fillArgs (opts : Opts) (dfa : Adfa) (s : State) (jump : Option CodeJump) :
    ∀ a ∈ fillArgsL (gen_fill_body opts dfa s jump),
      a = if opts.fill_eof.isSome then none else some s.fill := by
  intro a ha
  by_cases h1 : opts.fill_enable = true <;>
    by_cases he : opts.fill_eof.isSome = true <;>
      by_cases hst : opts.storable_state = true <;>
        by_cases hvf : opts.var_fill.isEmpty = true <;>
          cases hcm : opts.code_model <;>
            simp_all [gen_fill_body, gen_if, fillNeed, fillArgsL_append, fillArgsL, fillArgsC,
              fallback_no_fillArgs, goto_after_fill_no_fillArgs]

theorem gen_fill_body_no_ltGuards (opts : Opts) (dfa : Adfa) (s : State)
    (jump : Option CodeJump) :
    ltGuardsL (gen_fill_body opts dfa s jump) = [] := by
  by_cases h1 : opts.fill_enable = true <;>
    by_cases he : opts.fill_eof.isSome = true <;>
      by_cases hst : opts.storable_state = true <;>
        by_cases hvf : opts.var_fill.isEmpty = true <;>
          cases hcm : opts.code_model <;>
            simp_all [gen_fill_body, gen_if, fillNeed, ltGuardsL_append, ltGuardsL, ltGuardsC,
              fallback_no_ltGuards, goto_after_fill_no_ltGuards]

theorem gen_fill_has_fill (opts : Opts) (dfa : Adfa) (s : State) (jump : Option CodeJump)
    (tail : List Code) (h1 : opts.fill_enable = true) (h2 : opts.fill_eof = none) :
    hasFillL (gen_fill opts dfa s jump tail) = true := by
  have hb := gen_fill_body_has_fill opts dfa s jump h1 h2
  simp only [gen_fill, gen_if]
  split
  · split <;> simp [hasFillL, hasFillC, hasFillL_append, hb]
  · simp [hasFillL_append, hb]

/-- C2: a state-entry fill is emitted exactly when fill is enabled, the
state is not an end state, the EOF rule is off and the state's fill count
is positive; in particular no end state gets a state-entry fill.  The
character count used by the emitted fill and by its less-than guard is 1
when the EOF rule is enabled and the state's fill count otherwise (under
the EOF rule the fill call itself carries no length argument). -/
theorem fill_at_state_entry (opts : Opts) (dfa : Adfa) (s : State) :
    (hasFillL (gen_fill_and_label opts dfa s) = true ↔
      (opts.fill_enable = true ∧ endstate dfa s = false
        ∧ opts.fill_eof = none ∧ 0 < s.fill)) ∧
    (endstate dfa s = true → hasFillL (gen_fill_and_label opts dfa s) = false) ∧
    (∀ jump,
      (∀ a ∈ fillArgsL (gen_fill opts dfa s jump []),
        a = if opts.fill_eof.isSome then none else some s.fill) ∧
      (∀ n ∈ ltGuardsL (gen_fill opts dfa s jump []),
        n = if opts.fill_eof.isSome then 1 else s.fill)) := by
  have hset : ∀ tcid, hasFillL (gen_settags opts dfa tcid) = false :=
    fun tcid => plain_no_fill (gen_settags_plain opts dfa tcid)
  have part1 : hasFillL (gen_fill_and_label opts dfa s) = true ↔
      (opts.fill_enable = true ∧ endstate dfa s = false
        ∧ opts.fill_eof = none ∧ 0 < s.fill) := by
    by_cases h1 : opts.fill_enable = true <;>
      by_cases h2 : endstate dfa s = true <;>
        by_cases h3 : opts.fill_eof = none <;>
          by_cases h4 : 0 < s.fill <;>
            simp [gen_fill_and_label, h1, h2, h3, h4, hasFillL_append, hset,
              hasFillL, hasFillC, gen_fill_has_fill opts dfa s none [] ,
              Option.isNone_iff_eq_none, Option.isSome_iff_ne_none,
              Bool.not_eq_true] <;>
            first
              | (split <;> simp [hasFillL, hasFillC])
              | simp_all
  refine ⟨part1, fun h2 => ?_, fun jump => ⟨?_, ?_⟩⟩
  · rcases hfl : hasFillL (gen_fill_and_label opts dfa s) with _ | _
    · rfl
    · exact absurd (part1.mp hfl).2.1 (by simp [h2])
  · intro a ha
    have hb := gen_fill_body_fillArgs opts dfa s jump
    simp only [gen_fill, gen_if] at ha
    split at ha
    · split at ha <;>
        · simp only [fillArgsL, fillArgsC, fillArgsL_append, List.append_nil] at ha
          exact hb a (by simpa using ha)
    · simp only [List.append_nil] at ha
      exact hb a ha
  · intro n hn
    have hb := gen_fill_body_no_ltGuards opts dfa s jump
    simp only [gen_fill, gen_if] at hn
    split at hn
    · split at hn <;>
        · simp only [ltGuardsL, ltGuardsC, ltGuardsL_append, List.append_nil,
            hb, gen_less_than] at hn
          simp only [fillNeed] at hn
          simpa using hn
    · rw [List.append_nil, hb] at hn
      simp at hn

theorem fill_at_state_entry_witness :
    hasFillL (gen_fill_and_label optsFix dfa0 stE) = true := by
  exact (fill_at_state_entry optsFix dfa0 stE).1.mpr ⟨rfl, by decide, rfl, by decide⟩

theorem hoisted_tags_fallback_suppressed_witness :
    eff_falltags stH = TCID0 ∧
    gen_settags optsFix dfa0 (eff_falltags stH) = [] ∧
    (gen_fill_falllback optsFix dfa0 stH none = []
      ∨ gen_fill_falllback optsFix dfa0 stH none = fallback_transfer optsFix dfa0 stH.fallbto) :=
  hoisted_tags_fallback_suppressed optsFix dfa0 stH none (by decide) rfl rfl

theorem stateSetsL_ite (c : Prop) [Decidable c] (a b : List Code) :
    stateSetsL (if c then a else b) = if c then stateSetsL a else stateSetsL b := by
  split <;> rfl

theorem stateSets_gen_shift (sh : Int) (tag : String) (hist : Bool) :
    stateSetsL (gen_shift sh tag hist) = [] := by
  unfold gen_shift
  split <;> simp [stateSetsL, stateSetsC]

theorem stateSets_many_to_first (many : List String) :
    stateSetsL (gen_assign_many_to_first many) = [] := by
  unfold gen_assign_many_to_first
  split <;> simp [stateSetsL, stateSetsC]

theorem stateSets_map_text (l : List String) :
    stateSetsL (l.map Code.text) = [] := by
  induction l with
  | nil => simp [stateSetsL]
  | cons a t ih => simp [stateSetsL, stateSetsC, ih]

theorem gen_fintags_step_stateSets (opts : Opts) (dfa : Adfa) (t : Nat) {acc : FinAcc}
    (h1 : stateSetsL acc.varops = []) (h2 : stateSetsL acc.fixops = [])
    (h3 : stateSetsL acc.trailops = []) (h4 : stateSetsL acc.fixpostops = []) :
    stateSetsL (gen_fintags_step opts dfa acc t).varops = []
      ∧ stateSetsL (gen_fintags_step opts dfa acc t).fixops = []
      ∧ stateSetsL (gen_fintags_step opts dfa acc t).trailops = []
      ∧ stateSetsL (gen_fintags_step opts dfa acc t).fixpostops = [] := by
  simp only [gen_fintags_step]
  split_ifs <;>
    simp [stateSetsL_append, stateSetsL, stateSetsC, stateSets_gen_shift,
      stateSets_many_to_first, h1, h2, h3, h4]

theorem gen_fintags_fold_stateSets (opts : Opts) (dfa : Adfa) (ts : List Nat) :
    ∀ acc : FinAcc, stateSetsL acc.varops = [] → stateSetsL acc.fixops = [] →
      stateSetsL acc.trailops = [] → stateSetsL acc.fixpostops = [] →
      (stateSetsL (ts.foldl (gen_fintags_step opts dfa) acc).varops = []
        ∧ stateSetsL (ts.foldl (gen_fintags_step opts dfa) acc).fixops = []
        ∧ stateSetsL (ts.foldl (gen_fintags_step opts dfa) acc).trailops = []
        ∧ stateSetsL (ts.foldl (gen_fintags_step opts dfa) acc).fixpostops = []) := by
  induction ts with
  | nil => intro acc h1 h2 h3 h4; exact ⟨h1, h2, h3, h4⟩
  | cons t ts ih =>
    intro acc h1 h2 h3 h4
    have hstep := gen_fintags_step_stateSets opts dfa t h1 h2 h3 h4
    simpa [List.foldl_cons] using ih _ hstep.1 hstep.2.1 hstep.2.2.1 hstep.2.2.2

theorem gen_fintags_stateSets (opts : Opts) (dfa : Adfa) (rule : Rule) :
    stateSetsL (gen_fintags opts dfa rule) = [] := by
  obtain ⟨p1, p2, p3, p4⟩ := gen_fintags_fold_stateSets opts dfa
    (List.range' rule.ltag (rule.htag - rule.ltag)) ⟨[], [], [], [], ""⟩
    (by simp [stateSetsL]) (by simp [stateSetsL]) (by simp [stateSetsL])
    (by simp [stateSetsL])
  simp only [gen_fintags]
  split_ifs <;>
    simp [stateSetsL_append, stateSetsL, stateSetsC, p1, p2, p3, p4]

/-- C7 (amended): for a matched rule with storable state (in a non-skeleton
target) exactly one state-set is emitted, and its next-state value is the
next condition's enum value when the code model is loop/switch and
conditions are in use, and -1 in every other case (including rec/func with
conditions, where the next condition is conveyed by the separate
condition-set). -/
theorem emit_rule_state_set (opts : Opts) (dfa : Adfa) (rule_idx : Nat)
    (hs : opts.storable_state = true) (ht : opts.target ≠ Target.SKELETON) :
    stateSetsL (emit_rule opts dfa rule_idx) =
      [if dfa.cond.isEmpty || !(opts.code_model == CodeModel.LOOP_SWITCH) then "-1"
       else gen_cond_enum_elem opts ((ruleOf dfa rule_idx).semact.cond.getD dfa.cond)] := by
  have ht' : (opts.target == Target.SKELETON) = false := by
    cases htg : opts.target <;> simp_all
  cases hcm : opts.code_model <;>
    simp [emit_rule, ht', hs, hcm, stateSetsL_ite, stateSetsL_append,
      gen_fintags_stateSets, stateSetsL, stateSetsC, stateSets_map_text,
      gen_continue_yyloop, ite_self]

theorem emit_rule_state_set_witness :
    stateSetsL (emit_rule opts7 dfa7 0) = ["-1"] := by
  have h := emit_rule_state_set opts7 dfa7 0 rfl (by decide)
  simpa [opts7, optsFix, dfa7] using h

/-- C7, counterexample to the claim as stated: with storable state in the
rec/func code model and a non-empty condition, the emitted state-set value
is -1, not the next condition's enum value (the enum value is used only in
the loop/switch model). -/
theorem emit_rule_rec_func_counterexample :
    opts7.code_model = CodeModel.REC_FUNC ∧
    opts7.storable_state = true ∧
    dfa7.cond = "c1" ∧
    emit_rule opts7 dfa7 0 = [Code.stateSet "-1", Code.tailcall "yyfnc1"] ∧
    gen_cond_enum_elem opts7 "c1" = "yycc1" ∧
    ("-1" : String) ≠ "yycc1" := by
  refine ⟨rfl, rfl, rfl, ?_, rfl, by decide⟩
  rfl

theorem consistentConds_mono {M M' : List StartCond} (h : ∀ x ∈ M', x ∈ M) :
    consistentConds M → consistentConds M' :=
  fun hM c1 h1 c2 h2 => hM c1 (h c1 h1) c2 (h c2 h2)

theorem consistent_of_nodup {acc : List StartCond}
    (h : (acc.map StartCond.name).Nodup) : consistentConds acc := by
  intro c1 h1 c2 h2 hname
  rw [List.inj_on_of_nodup_map h h1 h2 hname]

theorem consistent_insert {acc L' : List StartCond} {c d : StartCond}
    (hd : d ∈ acc) (hname : d.name = c.name) (hnum : d.number = c.number)
    (h : consistentConds (acc ++ L')) : consistentConds (acc ++ c :: L') := by
  have hmem : ∀ z : StartCond, z ∈ acc ++ c :: L' → z = c ∨ z ∈ acc ++ L' := by
    intro z hz
    simp only [List.mem_append, List.mem_cons] at hz ⊢
    tauto
  have hd' : d ∈ acc ++ L' := List.mem_append_left _ hd
  intro x hx y hy hxy
  rcases hmem x hx with rfl | hx'
  · rcases hmem y hy with rfl | hy'
    · rfl
    · have hdy := h d hd' y hy' (hname.trans hxy)
      rw [← hnum]
      exact hdy
  · rcases hmem y hy with rfl | hy'
    · have hdx := h x hx' d hd' (hxy.trans hname.symm)
      exact hdx.trans hnum
    · exact h x hx' y hy' hxy

theorem nodup_push {acc : List StartCond} {c : StartCond}
    (hnd : (acc.map StartCond.name).Nodup)
    (hf : acc.find? (fun x => x.name == c.name) = none) :
    ((acc ++ [c]).map StartCond.name).Nodup := by
  have hfresh : c.name ∉ acc.map StartCond.name := by
    intro hmem
    simp only [List.mem_map] at hmem
    obtain ⟨x, hx, hxe⟩ := hmem
    have hx' := List.find?_eq_none.mp hf x hx
    simp [hxe] at hx'
  simp only [List.map_append, List.map_cons, List.map_nil]
  rw [List.nodup_append]
  refine ⟨hnd, List.nodup_singleton _, ?_⟩
  intro a ha hb
  simp only [List.mem_singleton] at hb
  exact hfresh (hb ▸ ha)

theorem addConds_ok_iff : ∀ (L acc : List StartCond), (acc.map StartCond.name).Nodup →
    ((∃ R, addConds acc L = Except.ok R) ↔ consistentConds (acc ++ L)) := by
  intro L
  induction L with
  | nil =>
    intro acc hnd
    constructor
    · intro _
      simpa using consistent_of_nodup hnd
    · intro _
      exact ⟨acc, rfl⟩
  | cons c cs ih =>
    intro acc hnd
    cases hf : acc.find? (fun x => x.name == c.name) with
    | some d =>
      have hd : d ∈ acc := List.mem_of_find?_eq_some hf
      have hdn : d.name = c.name := by
        have hp := List.find?_some hf
        simpa using hp
      by_cases hn : d.number = c.number
      · have hstep : addConds acc (c :: cs) = addConds acc cs := by
          simp [addConds, addCond, hf, hn]
        rw [hstep, ih acc hnd]
        constructor
        · exact consistent_insert hd hdn hn
        · refine consistentConds_mono ?_
          intro x hx
          simp only [List.mem_append, List.mem_cons] at hx ⊢
          tauto
      · have hstep : ∀ R, addConds acc (c :: cs) ≠ Except.ok R := by
          intro R
          simp [addConds, addCond, hf, hn]
        constructor
        · rintro ⟨R, hR⟩
          exact absurd hR (hstep R)
        · intro hcon
          exact absurd (hcon d (List.mem_append_left _ hd) c (by simp) hdn) hn
    | none =>
      have hstep : addConds acc (c :: cs) = addConds (acc ++ [c]) cs := by
        simp [addConds, addCond, hf]
      rw [hstep, ih (acc ++ [c]) (nodup_push hnd hf), List.append_assoc,
        List.singleton_append]

theorem addConds_ok_props : ∀ (L acc R : List StartCond),
    (acc.map StartCond.name).Nodup → addConds acc L = Except.ok R →
    ((R.map StartCond.name).Nodup ∧ (∀ c ∈ acc, c ∈ R)
      ∧ (∀ c ∈ L, ∃ d ∈ R, d.name = c.name ∧ d.number = c.number)
      ∧ (∀ d ∈ R, d ∈ acc ∨ d ∈ L)) := by
  intro L
  induction L with
  | nil =>
    intro acc R hnd hok
    have hacc : acc = R := by simpa [addConds] using hok
    subst hacc
    exact ⟨hnd, fun c hc => hc, by simp, fun d hd => Or.inl hd⟩
  | cons c cs ih =>
    intro acc R hnd hok
    cases hf : acc.find? (fun x => x.name == c.name) with
    | some d =>
      have hd : d ∈ acc := List.mem_of_find?_eq_some hf
      have hdn : d.name = c.name := by
        have hp := List.find?_some hf
        simpa using hp
      by_cases hn : d.number = c.number
      · rw [show addConds acc (c :: cs) = addConds acc cs by
          simp [addConds, addCond, hf, hn]] at hok
        obtain ⟨p1, p2, p3, p4⟩ := ih acc R hnd hok
        refine ⟨p1, p2, ?_, ?_⟩
        · intro x hx
          rcases List.mem_cons.mp hx with rfl | hx'
          · exact ⟨d, p2 d hd, hdn, hn⟩
          · exact p3 x hx'
        · intro d' hd'
          rcases p4 d' hd' with h | h
          · exact Or.inl h
          · exact Or.inr (List.mem_cons_of_mem _ h)
      · rw [show addConds acc (c :: cs)
            = Except.error ("conditon " ++ c.name ++
                " has different numbers in different blocks") by
          simp [addConds, addCond, hf, hn]] at hok
        exact absurd hok (by simp)
    | none =>
      rw [show addConds acc (c :: cs) = addConds (acc ++ [c]) cs by
        simp [addConds, addCond, hf]] at hok
      obtain ⟨p1, p2, p3, p4⟩ := ih (acc ++ [c]) R (nodup_push hnd hf) hok
      refine ⟨p1, fun x hx => p2 x (List.mem_append_left _ hx), ?_, ?_⟩
      · intro x hx
        rcases List.mem_cons.mp hx with rfl | hx'
        · exact ⟨x, p2 x (by simp), rfl, rfl⟩
        · exact p3 x hx'
      · intro d' hd'
        rcases p4 d' hd' with h | h
        · rcases List.mem_append.mp h with h' | h'
          · exact Or.inl h'
          · simp only [List.mem_singleton] at h'
            exact Or.inr (by simp [h'])
        · exact Or.inr (List.mem_cons_of_mem _ h)

theorem addConds_append (conds l1 l2 : List StartCond) :
    addConds conds (l1 ++ l2) =
      match addConds conds l1 with
      | Except.ok c' => addConds c' l2
      | Except.error e => Except.error e := by
  induction l1 generalizing conds with
  | nil => simp [addConds]
  | cons c cs ih =>
    simp only [List.cons_append, addConds]
    cases h : addCond conds c with
    | ok conds' => simp [h, ih]
    | error e => simp [h]

theorem qualifiedConds_append (l1 l2 : List OutputBlockM) :
    qualifiedConds (l1 ++ l2) = qualifiedConds l1 ++ qualifiedConds l2 := by
  induction l1 with
  | nil => simp [qualifiedConds]
  | cons b bs ih => simp [qualifiedConds, List.foldr_cons] at ih ⊢; rw [ih]

theorem add_conditions_eq_addConds (blocks : List OutputBlockM) :
    ∀ conds, add_conditions_from_blocks blocks conds = addConds conds (qualifiedConds blocks) := by
  induction blocks with
  | nil => intro conds; rfl
  | cons b bs ih =>
    intro conds
    simp only [add_conditions_from_blocks, qualifiedConds, List.foldr_cons]
    rw [show (List.foldr (fun b r => b.conds.map (qualifyCond b) ++ r) [] bs)
      = qualifiedConds bs from rfl, addConds_append]
    cases h : addConds conds (b.conds.map (qualifyCond b)) with
    | ok conds' => simp [h, ih conds']
    | error e => simp [h]

theorem expand_global_eq (cblocks hblocks : List OutputBlockM) :
    expand_cond_enum Target.CODE cblocks hblocks none
      = addConds [] (qualifiedConds (cblocks ++ hblocks)) := by
  simp only [expand_cond_enum, bne_self_eq_false, Bool.false_eq_true, if_false]
  rw [add_conditions_eq_addConds cblocks [], qualifiedConds_append, addConds_append]
  cases h : addConds [] (qualifiedConds cblocks) with
  | ok conds' => simp [h, add_conditions_eq_addConds hblocks conds']
  | error e => simp [h]

theorem expand_named_eq (cblocks hblocks : List OutputBlockM) (names : List String)
    (bs : List OutputBlockM) (hfb : find_blocks cblocks hblocks names = Except.ok bs) :
    expand_cond_enum Target.CODE cblocks hblocks (some names)
      = addConds [] (qualifiedConds bs) := by
  simp [expand_cond_enum, hfb, add_conditions_eq_addConds]

theorem addConds_nil_error_iff (L : List StartCond) :
    (∃ e, addConds [] L = Except.error e) ↔
      ∃ c1 ∈ L, ∃ c2 ∈ L, c1.name = c2.name ∧ c1.number ≠ c2.number := by
  have hiff := addConds_ok_iff L [] (by simp)
  constructor
  · rintro ⟨e, he⟩
    have hcon : ¬ consistentConds L := by
      intro hc
      obtain ⟨R, hR⟩ := hiff.mpr (by simpa using hc)
      rw [hR] at he
      exact absurd he (by simp)
    unfold consistentConds at hcon
    push_neg at hcon
    obtain ⟨c1, h1, c2, h2, hname, hnum⟩ := hcon
    exact ⟨c1, h1, c2, h2, hname, hnum⟩
  · rintro ⟨c1, h1, c2, h2, hname, hnum⟩
    cases hval : addConds [] L with
    | error e => exact ⟨e, rfl⟩
    | ok R =>
      have hcon := hiff.mp ⟨R, hval⟩
      simp only [List.nil_append] at hcon
      exact absurd (hcon c1 h1 c2 h2 hname) hnum

theorem addConds_nil_props (L R : List StartCond) (h : addConds [] L = Except.ok R) :
    (R.map StartCond.name).Nodup
      ∧ (∀ c ∈ L, ∃ d ∈ R, d.name = c.name ∧ d.number = c.number)
      ∧ (∀ d ∈ R, d ∈ L) := by
  obtain ⟨p1, p2, p3, p4⟩ := addConds_ok_props L [] R (by simp) h
  exact ⟨p1, p3, fun d hd => (p4 d hd).resolve_left (by simp)⟩

/-- C8 (amended): when every block referenced by a `types:re2c` directive
resolves — always the case for the global directive over the output and
header blocks — expansion fails exactly when two referenced blocks define
conditions with the same prefix-qualified name but different numbers, and
on success the gathered list has no duplicate names, every referenced
condition is represented by an entry with its name and number, and every
entry comes from a referenced block (identical duplicates are added
once).  A directive with an explicit block-name list additionally fails,
regardless of collisions, when a listed block does not exist. -/
theorem cond_enum_error_characterization (cblocks hblocks : List OutputBlockM) :
    ((∃ e, expand_cond_enum Target.CODE cblocks hblocks none = Except.error e) ↔
      ∃ c1 ∈ qualifiedConds (cblocks ++ hblocks),
        ∃ c2 ∈ qualifiedConds (cblocks ++ hblocks),
          c1.name = c2.name ∧ c1.number ≠ c2.number) ∧
    (∀ R, expand_cond_enum Target.CODE cblocks hblocks none = Except.ok R →
      (R.map StartCond.name).Nodup
      ∧ (∀ c ∈ qualifiedConds (cblocks ++ hblocks),
          ∃ d ∈ R, d.name = c.name ∧ d.number = c.number)
      ∧ (∀ d ∈ R, d ∈ qualifiedConds (cblocks ++ hblocks))) ∧
    (∀ names bs, find_blocks cblocks hblocks names = Except.ok bs →
      ((∃ e, expand_cond_enum Target.CODE cblocks hblocks (some names) = Except.error e) ↔
        ∃ c1 ∈ qualifiedConds bs, ∃ c2 ∈ qualifiedConds bs,
          c1.name = c2.name ∧ c1.number ≠ c2.number)
      ∧ (∀ R, expand_cond_enum Target.CODE cblocks hblocks (some names) = Except.ok R →
          (R.map StartCond.name).Nodup
          ∧ (∀ c ∈ qualifiedConds bs, ∃ d ∈ R, d.name = c.name ∧ d.number = c.number)
          ∧ (∀ d ∈ R, d ∈ qualifiedConds bs))) ∧
    (∀ names e, find_blocks cblocks hblocks names = Except.error e →
      expand_cond_enum Target.CODE cblocks hblocks (some names) = Except.error e) := by
  refine ⟨?_, ?_, ?_, ?_⟩
  · rw [expand_global_eq]
    exact addConds_nil_error_iff (qualifiedConds (cblocks ++ hblocks))
  · intro R hR
    rw [expand_global_eq] at hR
    exact addConds_nil_props (qualifiedConds (cblocks ++ hblocks)) R hR
  · intro names bs hfb
    constructor
    · rw [expand_named_eq cblocks hblocks names bs hfb]
      exact addConds_nil_error_iff (qualifiedConds bs)
    · intro R hR
      rw [expand_named_eq cblocks hblocks names bs hfb] at hR
      exact addConds_nil_props (qualifiedConds bs) R hR
  · intro names e hfb
    simp [expand_cond_enum, hfb]

theorem cond_enum_error_characterization_witness :
    (∃ e, expand_cond_enum Target.CODE [blkA] [blkC] none = Except.error e) ∧
    (([(⟨"px", 0⟩ : StartCond)].map StartCond.name).Nodup) ∧
    (∃ e, expand_cond_enum Target.CODE [blkA] [blkC] (some ["a", "c"]) = Except.error e) ∧
    expand_cond_enum Target.CODE [blkA] [] (some ["zzz"])
      = Except.error ("cannot find block " ++ "zzz") := by
  refine ⟨?_, ?_, ?_, ?_⟩
  · exact (cond_enum_error_characterization [blkA] [blkC]).1.mpr
      ⟨⟨"px", 0⟩, by decide, ⟨"px", 1⟩, by decide, rfl, by decide⟩
  · exact (((cond_enum_error_characterization [blkA] [blkA]).2.1) [⟨"px", 0⟩] rfl).1
  · exact (((cond_enum_error_characterization [blkA] [blkC]).2.2.1) ["a", "c"]
      [blkA, blkC] rfl).1.mpr
      ⟨⟨"px", 0⟩, by decide, ⟨"px", 1⟩, by decide, rfl, by decide⟩
  · exact ((cond_enum_error_characterization [blkA] []).2.2.2) ["zzz"]
      ("cannot find block " ++ "zzz") rfl

/-- C8, counterexample to the claim as stated: a `types:re2c` directive
whose block-name list contains a missing name fails although no two
referenced blocks define conditions with the same qualified name and
different numbers, so expansion can error without any collision. -/
theorem cond_enum_missing_block_counterexample :
    (∃ e, expand_cond_enum Target.CODE [blkA] [] (some ["nosuch"]) = Except.error e) ∧
    ¬(∃ c1 ∈ qualifiedConds ([blkA] ++ []), ∃ c2 ∈ qualifiedConds ([blkA] ++ []),
        c1.name = c2.name ∧ c1.number ≠ c2.number) := by
  constructor
  · exact ⟨"cannot find block " ++ "nosuch", rfl⟩
  · decide

theorem max_among_blocks_eq (blocks : List OutputBlockM) (mx : Nat) (kind : MaxKind) :
    max_among_blocks blocks mx kind = Nat.max mx (blocksMax kind blocks) := by
  induction blocks generalizing mx with
  | nil => simp [max_among_blocks, blocksMax]
  | cons b bs ih =>
    have h := ih (Nat.max mx (blockMax kind b))
    simp only [max_among_blocks, List.foldl_cons] at h ⊢
    rw [show (if kind == MaxKind.MAXFILL then b.max_fill else b.max_nmatch)
      = blockMax kind b from rfl, h]
    simp [blocksMax, Nat.max_assoc, blockMax]

theorem blocksMax_append (kind : MaxKind) (l1 l2 : List OutputBlockM) :
    blocksMax kind (l1 ++ l2) = Nat.max (blocksMax kind l1) (blocksMax kind l2) := by
  induction l1 with
  | nil => simp [blocksMax]
  | cons b bs ih => simp [blocksMax, List.foldr_cons, Nat.max_assoc] at *; rw [ih]

/-- C10: a `maxfill:re2c`/`maxnmatch:re2c` directive emits the maximum of
1 and the per-block maxima of the referenced blocks (all blocks when no
names are given); in particular the emitted value is at least 1 even when
every referenced block reports 0. -/
theorem yymax_value (cblocks hblocks : List OutputBlockM) (kind : MaxKind) :
    (gen_yymax Target.CODE cblocks hblocks none kind
      = Except.ok (some (Nat.max 1 (blocksMax kind (cblocks ++ hblocks))))) ∧
    (∀ v, gen_yymax Target.CODE cblocks hblocks none kind = Except.ok (some v) → 1 ≤ v) ∧
    (∀ names bs, find_blocks cblocks hblocks names = Except.ok bs →
      gen_yymax Target.CODE cblocks hblocks (some names) kind
        = Except.ok (some (Nat.max 1 (blocksMax kind bs)))) := by
  have hval : gen_yymax Target.CODE cblocks hblocks none kind
      = Except.ok (some (Nat.max 1 (blocksMax kind (cblocks ++ hblocks)))) := by
    simp [gen_yymax, max_among_blocks_eq, blocksMax_append, Nat.max_assoc]
  refine ⟨hval, ?_, ?_⟩
  · intro v hv
    rw [hval] at hv
    simp only [Except.ok.injEq, Option.some.injEq] at hv
    rw [← hv]
    exact Nat.le_max_left 1 _
  · intro names bs hfb
    simp [gen_yymax, hfb, max_among_blocks_eq]

theorem yymax_value_witness :
    gen_yymax Target.CODE [blkB] [] none MaxKind.MAXFILL = Except.ok (some 1) ∧
    gen_yymax Target.CODE [blkB] [] (some ["b"]) MaxKind.MAXNMATCH = Except.ok (some 7) := by
  constructor
  · have h := (yymax_value [blkB] [] MaxKind.MAXFILL).1
    simpa [blocksMax, blockMax, blkB] using h
  · have h := (yymax_value [blkB] [] MaxKind.MAXNMATCH).2.2 ["b"] [blkB] rfl
    simpa [blocksMax, blockMax, blkB] using h

end Re2c
